import Mathlib

/-!
Verification of the recursive spatial-partition grid engine of the
archcraft-hyprland-config wallpaper scripts.

The definitions below are a shallow embedding of the Python sources:

- `src/wallpapers/dotted_wallpaper.py`: `Rect`, `split_rect` (as `splitRect`),
  `generate_irregular_grid` (as `generateIrregularGrid`, built from `addLine`,
  `addRectEdges`, `stepRect`, `depthStep`), the minimum-separation filter of
  `create_dotted_wallpaper_irregular` (as `minSepFilter`), the dot placement of
  the irregular mode (as `irregularDotPositions` / `irregularEllipses`) and of
  the uniform mode (as `uniformDotPositions`).
- `src/wallpapers/doodle_wallpaper.py`: `draw_recursive_shapes`
  (as `draw_recursive_shapes`, with structural helper `drawShapesAux` and
  base case `doodleBase`).

Modelling conventions:

- Python ints are `Int`; Python floats arising in these scripts are modelled
  as `Rat`.  All float operations the settled claims depend on (halving of
  integer-valued coordinates, sums of dyadic rationals with small exponents,
  products with the ratio value 0.5) are exact in binary64, so the rational
  model agrees with the float execution on every concrete run evaluated here.
  The entries of the split ratio cycle are taken as the exact binary64 values
  of the Python literals.  The binary64 rounding of the float product
  `total_w * ratio` itself is not modelled (the exact rational product is
  truncated instead); no settled claim depends on a ratio other than 0.5,
  for which the product is exact.
- Python `int(...)` truncates toward zero: `pyInt`.  Python `//` is floor
  division: `Int.fdiv`.
- Python `set` objects are modelled as duplicate-free lists built with
  `List.insert`; membership and the sorted view coincide with the set.
- The ambient random number generator of `doodle_wallpaper.py` is modelled as
  an explicit decision stream `Nat -> Decision`, consumed in traversal order:
  one `Decision` per base-case cell that is not already claimed, bundling the
  fill draw, the two merge-size draws and the palette index.  Every behaviour
  of the Python program corresponds to some stream, and conversely.
-/

namespace ArchWall

/-- Truncation toward zero of a rational, the behaviour of Python `int(...)`
on a float. -/
def pyInt (q : ℚ) : ℤ := if 0 ≤ q then ⌊q⌋ else -⌊-q⌋

/-- The `Rect` dataclass of `dotted_wallpaper.py`: integer position and size. -/
structure Rect where
  x : ℤ
  y : ℤ
  w : ℤ
  h : ℤ
deriving DecidableEq, Repr

/-- Derived right edge `x1 = x + w` of a `Rect`. -/
def Rect.x1 (r : Rect) : ℤ := r.x + r.w

/-- Derived bottom edge `y1 = y + h` of a `Rect`. -/
def Rect.y1 (r : Rect) : ℤ := r.y + r.h

/-- The raw vertical cut position `split_x = rect.x + int(rect.w * frac)` of
`split_rect`. -/
def splitPointV (rect : Rect) (frac : ℚ) : ℤ := rect.x + pyInt ((rect.w : ℚ) * frac)

/-- The raw horizontal cut position `split_y = rect.y + int(rect.h * frac)` of
`split_rect`. -/
def splitPointH (rect : Rect) (frac : ℚ) : ℤ := rect.y + pyInt ((rect.h : ℚ) * frac)

/-- The per-side inset `gap // 2` used by `split_rect` (Python floor
division). -/
def halfGap (gapsIn : ℤ) : ℤ := Int.fdiv gapsIn 2

/-- The `split_rect` function of `dotted_wallpaper.py`: split a rect into two
child rects at `position + int(size * frac)`, insetting each side of the cut
by `gaps_in // 2` and clamping child sizes at zero. -/
def splitRect (rect : Rect) (vertical : Bool) (frac : ℚ) (gapsIn : ℤ) : Rect × Rect :=
  if vertical then
    let splitX := splitPointV rect frac
    let leftX0 := rect.x
    let leftX1 := max leftX0 (splitX - halfGap gapsIn)
    let rightX0 := min (splitX + halfGap gapsIn) rect.x1
    let rightX1 := rect.x1
    (⟨leftX0, rect.y, max 0 (leftX1 - leftX0), rect.h⟩,
     ⟨rightX0, rect.y, max 0 (rightX1 - rightX0), rect.h⟩)
  else
    let splitY := splitPointH rect frac
    let topY0 := rect.y
    let topY1 := max topY0 (splitY - halfGap gapsIn)
    let botY0 := min (splitY + halfGap gapsIn) rect.y1
    let botY1 := rect.y1
    (⟨rect.x, topY0, rect.w, max 0 (topY1 - topY0)⟩,
     ⟨rect.x, botY0, rect.w, max 0 (botY1 - botY0)⟩)

/-- The closures `add_vertical_line` and `add_horizontal_line` of
`generate_irregular_grid`: discard a coordinate outside `[lo, hi]`, otherwise
record it and also record its mirror about `c` when the mirror lies in
`[lo, hi]`. -/
def addLine (lo hi c : ℤ) (s : List ℤ) (v : ℤ) : List ℤ :=
  if v < lo ∨ hi < v then s
  else
    let s1 := s.insert v
    let m := 2 * c - v
    if lo ≤ m ∧ m ≤ hi then s1.insert m else s1

/-- Recording of the four edges of an accepted child rect, as done after each
successful split in `generate_irregular_grid`. -/
def addRectEdges (uX uX1 cx uY uY1 cy : ℤ) (xy : List ℤ × List ℤ) (r : Rect) :
    List ℤ × List ℤ :=
  let xs := addLine uX uX1 cx (addLine uX uX1 cx xy.1 r.x) r.x1
  let ys := addLine uY uY1 cy (addLine uY uY1 cy xy.2 r.y) r.y1
  (xs, ys)

/-- Body of the inner loop of `generate_irregular_grid`: a rect that is too
small (width or height at most `2 * border_size + gaps_in`) is passed through
unsplit; otherwise it is split and each child with positive area is kept and its
edges recorded. -/
def stepRect (vertical : Bool) (frac : ℚ) (gapsIn borderSize uX uX1 cx uY uY1 cy : ℤ)
    (acc : List Rect × List ℤ × List ℤ) (r : Rect) : List Rect × List ℤ × List ℤ :=
  if r.w ≤ 2 * borderSize + gapsIn ∨ r.h ≤ 2 * borderSize + gapsIn then
    (acc.1 ++ [r], acc.2)
  else
    let ab := splitRect r vertical frac gapsIn
    let acc1 :=
      if 0 < ab.1.w ∧ 0 < ab.1.h then
        (acc.1 ++ [ab.1], addRectEdges uX uX1 cx uY uY1 cy acc.2 ab.1)
      else acc
    if 0 < ab.2.w ∧ 0 < ab.2.h then
      (acc1.1 ++ [ab.2], addRectEdges uX uX1 cx uY uY1 cy acc1.2 ab.2)
    else acc1

/-- The fixed deterministic split-ratio cycle `[0.5, 0.5, 0.6, 0.4, 0.55,
0.45, 0.65, 0.35]` of `generate_irregular_grid`, each literal taken as its
exact binary64 value. -/
def ratioCycle : List ℚ :=
  [1 / 2, 1 / 2,
   5404319552844595 / 9007199254740992, 7205759403792794 / 18014398509481984,
   4953959590107546 / 9007199254740992, 8106479329266893 / 18014398509481984,
   5854679515581645 / 9007199254740992, 6305039478318694 / 18014398509481984]

/-- One iteration of the outer `for depth in range(max_depth)` loop of
`generate_irregular_grid`: even depths split vertically, odd depths
horizontally, with the ratio drawn from the fixed cycle of length 8. -/
def depthStep (gapsIn borderSize uX uX1 cx uY uY1 cy : ℤ)
    (st : List Rect × List ℤ × List ℤ) (depth : ℕ) : List Rect × List ℤ × List ℤ :=
  let vertical := depth % 2 == 0
  let frac := ratioCycle.getD (depth % 8) 0
  st.1.foldl (stepRect vertical frac gapsIn borderSize uX uX1 cx uY uY1 cy) ([], st.2)

/-- The usable rect of `generate_irregular_grid`: screen minus top bar and
outer gaps. -/
def usableRect (width height gapsOut topBar : ℤ) : Rect :=
  ⟨gapsOut, topBar + gapsOut, width - 2 * gapsOut, height - topBar - 2 * gapsOut⟩

/-- The mirror center `cx = usable.x + usable.w // 2` of
`generate_irregular_grid`. -/
def gridCenterX (width height gapsOut topBar : ℤ) : ℤ :=
  (usableRect width height gapsOut topBar).x +
    Int.fdiv (usableRect width height gapsOut topBar).w 2

/-- The mirror center `cy = usable.y + usable.h // 2` of
`generate_irregular_grid`. -/
def gridCenterY (width height gapsOut topBar : ℤ) : ℤ :=
  (usableRect width height gapsOut topBar).y +
    Int.fdiv (usableRect width height gapsOut topBar).h 2

/-- The `generate_irregular_grid` function of `dotted_wallpaper.py`: seed the
usable edges, then run `max_depth` split rounds, returning the vertical and
horizontal line coordinate sets. -/
def generateIrregularGrid (width height gapsOut gapsIn borderSize topBar : ℤ)
    (maxDepth : ℕ) : List ℤ × List ℤ :=
  let usable := usableRect width height gapsOut topBar
  let cx := gridCenterX width height gapsOut topBar
  let cy := gridCenterY width height gapsOut topBar
  let xs0 := addLine usable.x usable.x1 cx (addLine usable.x usable.x1 cx [] usable.x) usable.x1
  let ys0 := addLine usable.y usable.y1 cy (addLine usable.y usable.y1 cy [] usable.y) usable.y1
  let fin := (List.range maxDepth).foldl
    (depthStep gapsIn borderSize usable.x usable.x1 cx usable.y usable.y1 cy)
    ([usable], xs0, ys0)
  fin.2

/-- The minimum-separation filter of `create_dotted_wallpaper_irregular`,
with the last kept value threaded as in the Python loop. -/
def minSepAux (minSep : ℤ) : Option ℤ → List ℤ → List ℤ
  | _, [] => []
  | none, v :: rest => v :: minSepAux minSep (some v) rest
  | some last, v :: rest =>
    if minSep ≤ |v - last| then v :: minSepAux minSep (some v) rest
    else minSepAux minSep (some last) rest

/-- Keep a value only when it is at least `minSep` away from the last kept
value, starting with no last value. -/
def minSepFilter (minSep : ℤ) (l : List ℤ) : List ℤ := minSepAux minSep none l

/-- Sorted view of a coordinate set followed by the minimum-separation filter:
the retained coordinates of `create_dotted_wallpaper_irregular`. -/
def retainedCoords (minSep : ℤ) (l : List ℤ) : List ℤ :=
  minSepFilter minSep (List.insertionSort (fun a b => a ≤ b) l)

/-- Dot centers drawn by `create_dotted_wallpaper_irregular`: the Cartesian
product of the two retained coordinate lists (with the hardcoded minimum
separation 8), restricted to the usable area. -/
def irregularDotPositions (width height gapsOut gapsIn borderSize topBar : ℤ)
    (maxDepth : ℕ) : List (ℤ × ℤ) :=
  let xy := generateIrregularGrid width height gapsOut gapsIn borderSize topBar maxDepth
  let fxs := retainedCoords 8 xy.1
  let fys := retainedCoords 8 xy.2
  fxs.flatMap (fun x => fys.filterMap (fun y =>
    if gapsOut ≤ x ∧ x ≤ width - gapsOut ∧ topBar + gapsOut ≤ y ∧ y ≤ height - gapsOut
    then some (x, y) else none))

/-- Bounding boxes of the ellipses drawn by `create_dotted_wallpaper_irregular`:
each dot center expanded by the dot radius on every side. -/
def irregularEllipses (width height gapsOut gapsIn borderSize topBar : ℤ)
    (maxDepth : ℕ) (dotRadius : ℤ) : List (ℤ × ℤ × ℤ × ℤ) :=
  (irregularDotPositions width height gapsOut gapsIn borderSize topBar maxDepth).map
    (fun p => (p.1 - dotRadius, p.2 - dotRadius, p.1 + dotRadius, p.2 + dotRadius))

/-- Dot centers of `create_dotted_wallpaper_uniform`: a regular lattice from
the start corner, rows and columns cut off at the far gap boundary exactly as
the Python `break` statements do.  The Python code divides by `dot_spacing`,
so runs with spacing 0 raise and are outside this model. -/
def uniformDotPositions (width height dotSpacing gapsOut topBar : ℤ) : List (ℤ × ℤ) :=
  let startX := gapsOut
  let startY := topBar + gapsOut
  let availW := width - 2 * gapsOut
  let availH := height - topBar - 2 * gapsOut
  let dotsX := pyInt ((availW : ℚ) / (dotSpacing : ℚ)) + 1
  let dotsY := pyInt ((availH : ℚ) / (dotSpacing : ℚ)) + 1
  let rows := ((List.range (dotsY + 1).toNat).map
    (fun row : ℕ => startY + (row : ℤ) * dotSpacing)).takeWhile
      (fun y => decide (y ≤ height - gapsOut))
  let cols := ((List.range (dotsX + 1).toNat).map
    (fun col : ℕ => startX + (col : ℤ) * dotSpacing)).takeWhile
      (fun x => decide (x ≤ width - gapsOut))
  rows.flatMap (fun y => cols.map (fun x => (x, y)))

/-- Identity key of a terminal cell in `doodle_wallpaper.py`:
`(int(x), int(y), int(w), int(h))`. -/
abbrev CellKey := ℤ × ℤ × ℤ × ℤ

/-- Build the cell key of a cell with rational geometry. -/
def cellKey (x y w h : ℚ) : CellKey := (pyInt x, pyInt y, pyInt w, pyInt h)

/-- One bundle of random draws consumed at a base-case cell of
`draw_recursive_shapes`: the fill decision, the two merge sizes (each drawn
from `randint(1, MAX_MERGE_SIZE)` in the source) and the palette index. -/
structure Decision where
  fill : Bool
  mergeW : ℕ
  mergeH : ℕ
  colorIdx : ℕ
deriving DecidableEq, Repr

/-- A `rounded_rectangle` draw command issued by `draw_recursive_shapes`,
with the already-rounded pixel corners, the clamped corner radius and the
palette index of the chosen color. -/
structure FilledRectCmd where
  x1 : ℤ
  y1 : ℤ
  x2 : ℤ
  y2 : ℤ
  radius : ℤ
  colorIdx : ℕ
deriving DecidableEq, Repr

/-- State threaded through the recursive walk of `draw_recursive_shapes`:
the claimed-cell set `filled_cells`, the footprints of the accepted claims in
acceptance order (observable history of the same mutation), the issued draw
commands, and the index of the next unread decision. -/
structure DoodleState where
  filled : List CellKey
  accepted : List (List CellKey)
  drawn : List FilledRectCmd
  idx : ℕ
deriving DecidableEq, Repr

/-- The walk starts with no claimed cell, no accepted claim and no command. -/
def initDoodleState : DoodleState := ⟨[], [], [], 0⟩

/-- Unit cells of a merge footprint, exactly the keys enumerated by the
check and claim loops of `draw_recursive_shapes`. -/
def footprintCells (x y w h : ℚ) (mergeW mergeH : ℕ) : List CellKey :=
  (List.range mergeW).flatMap
    (fun i => (List.range mergeH).map (fun j => cellKey (x + w * i) (y + h * j) w h))

/-- Base case of `draw_recursive_shapes` (reached when `level < min_level`):
skip an already-claimed cell, otherwise consume one decision; on a fill
decision test the merge footprint against the container far edges and the
claimed-cell set, and on acceptance claim every footprint cell, then draw the
padded rounded rectangle when it has positive extent. -/
def doodleBase (x y w h : ℚ) (padding cX cY cW cH cornerRadius : ℤ)
    (dec : ℕ → Decision) (s : DoodleState) : DoodleState :=
  let key := cellKey x y w h
  if key ∈ s.filled then s
  else
    let d := dec s.idx
    let s1 : DoodleState := { s with idx := s.idx + 1 }
    if d.fill then
      let mergedW := w * d.mergeW
      let mergedH := h * d.mergeH
      let fp := footprintCells x y w h d.mergeW d.mergeH
      if (¬ (((cX + cW : ℤ) : ℚ) < x + mergedW ∨ ((cY + cH : ℤ) : ℚ) < y + mergedH)) ∧
          (∀ k ∈ fp, k ∉ s1.filled) then
        let s2 : DoodleState :=
          { s1 with filled := s1.filled ++ fp, accepted := s1.accepted ++ [fp] }
        let px1 := pyInt (x + (padding : ℚ))
        let py1 := pyInt (y + (padding : ℚ))
        let px2 := pyInt (x + mergedW - (padding : ℚ))
        let py2 := pyInt (y + mergedH - (padding : ℚ))
        if px1 < px2 ∧ py1 < py2 then
          let rad := max 0 (min cornerRadius
            (min (Int.fdiv (px2 - px1) 2) (Int.fdiv (py2 - py1) 2)))
          { s2 with drawn := s2.drawn ++ [⟨px1, py1, px2, py2, rad, d.colorIdx⟩] }
        else s2
      else s1
    else s1

/-- Structural core of `draw_recursive_shapes`: `fuel` counts the remaining
subdivision rounds, so `fuel = 0` is the Python condition `level < min_level`
and each recursive call decreases both `level` and `fuel` by one.  The four
quadrant calls thread the state in source order: top-left, top-right,
bottom-left, bottom-right. -/
def drawShapesAux (fuel : ℕ) (x y w h : ℚ) (padding cX cY cW cH cornerRadius : ℤ)
    (dec : ℕ → Decision) (s : DoodleState) : DoodleState :=
  match fuel with
  | 0 => doodleBase x y w h padding cX cY cW cH cornerRadius dec s
  | n + 1 =>
    let midX := x + w / 2
    let midY := y + h / 2
    let nw := w / 2
    let nh := h / 2
    let s1 := drawShapesAux n x y nw nh padding cX cY cW cH cornerRadius dec s
    let s2 := drawShapesAux n midX y nw nh padding cX cY cW cH cornerRadius dec s1
    let s3 := drawShapesAux n x midY nw nh padding cX cY cW cH cornerRadius dec s2
    drawShapesAux n midX midY nw nh padding cX cY cW cH cornerRadius dec s3

/-- The `draw_recursive_shapes` function of `doodle_wallpaper.py`.  The Python
recursion subdivides while `level >= min_level` and reaches its base case when
`level < min_level`, so the number of remaining subdivision rounds is
`(level + 1 - min_level).toNat`, which drives the structural core. -/
def draw_recursive_shapes (x y w h : ℚ) (level minLevel : ℤ)
    (padding cX cY cW cH cornerRadius : ℤ) (dec : ℕ → Decision)
    (s : DoodleState) : DoodleState :=
  drawShapesAux (level + 1 - minLevel).toNat x y w h padding cX cY cW cH cornerRadius dec s

/-! Helper lemmas about truncation toward zero. -/

/-- On nonnegative rationals, truncation toward zero is the floor. -/
lemma pyInt_of_nonneg {q : ℚ} (h : 0 ≤ q) : pyInt q = ⌊q⌋ := if_pos h

/-- Truncation of a nonnegative rational is nonnegative. -/
lemma pyInt_nonneg {q : ℚ} (h : 0 ≤ q) : 0 ≤ pyInt q := by
  rw [pyInt_of_nonneg h]
  exact Int.floor_nonneg.mpr h

/-- An integer lower bound below a rational bounds its truncation, provided
the bound is nonnegative. -/
lemma le_pyInt {B : ℤ} {q : ℚ} (hB : 0 ≤ B) (h : (B : ℚ) ≤ q) : B ≤ pyInt q := by
  have hq : 0 ≤ q := le_trans (by exact_mod_cast hB) h
  rw [pyInt_of_nonneg hq]
  exact Int.le_floor.mpr h

/-- A nonnegative integer upper bound on a rational also bounds its
truncation. -/
lemma pyInt_le {B : ℤ} {q : ℚ} (hB : 0 ≤ B) (h : q ≤ (B : ℚ)) : pyInt q ≤ B := by
  by_cases hq : 0 ≤ q
  · rw [pyInt_of_nonneg hq]
    exact le_trans (Int.floor_le_floor h) (le_of_eq (Int.floor_intCast B))
  · push_neg at hq
    rw [pyInt, if_neg (not_le.mpr hq)]
    have h0 : 0 ≤ ⌊-q⌋ := Int.floor_nonneg.mpr (by linarith)
    omega

/-- Reduction of `splitRect` on the vertical branch. -/
lemma splitRect_vertical (rect : Rect) (frac : ℚ) (gapsIn : ℤ) :
    splitRect rect true frac gapsIn =
      (⟨rect.x, rect.y,
          max 0 (max rect.x (splitPointV rect frac - halfGap gapsIn) - rect.x), rect.h⟩,
       ⟨min (splitPointV rect frac + halfGap gapsIn) rect.x1, rect.y,
          max 0 (rect.x1 - min (splitPointV rect frac + halfGap gapsIn) rect.x1), rect.h⟩) :=
  rfl

/-- Reduction of `splitRect` on the horizontal branch. -/
lemma splitRect_horizontal (rect : Rect) (frac : ℚ) (gapsIn : ℤ) :
    splitRect rect false frac gapsIn =
      (⟨rect.x, rect.y, rect.w,
          max 0 (max rect.y (splitPointH rect frac - halfGap gapsIn) - rect.y)⟩,
       ⟨rect.x, min (splitPointH rect frac + halfGap gapsIn) rect.y1, rect.w,
          max 0 (rect.y1 - min (splitPointH rect frac + halfGap gapsIn) rect.y1)⟩) :=
  rfl

/-- The cut point stays inside the parent when the ratio is in the unit
interval and the parent has nonnegative size (vertical case). -/
lemma splitPointV_bounds {rect : Rect} {frac : ℚ} (hw : 0 ≤ rect.w)
    (h0 : 0 ≤ frac) (h1 : frac ≤ 1) :
    rect.x ≤ splitPointV rect frac ∧ splitPointV rect frac ≤ rect.x + rect.w := by
  have hw0 : (0 : ℚ) ≤ (rect.w : ℚ) := by exact_mod_cast hw
  have hlo : 0 ≤ pyInt ((rect.w : ℚ) * frac) := pyInt_nonneg (mul_nonneg hw0 h0)
  have hhi : pyInt ((rect.w : ℚ) * frac) ≤ rect.w :=
    pyInt_le hw (mul_le_of_le_one_right hw0 h1)
  unfold splitPointV
  omega

/-- The cut point stays inside the parent when the ratio is in the unit
interval and the parent has nonnegative size (horizontal case). -/
lemma splitPointH_bounds {rect : Rect} {frac : ℚ} (hh : 0 ≤ rect.h)
    (h0 : 0 ≤ frac) (h1 : frac ≤ 1) :
    rect.y ≤ splitPointH rect frac ∧ splitPointH rect frac ≤ rect.y + rect.h := by
  have hh0 : (0 : ℚ) ≤ (rect.h : ℚ) := by exact_mod_cast hh
  have hlo : 0 ≤ pyInt ((rect.h : ℚ) * frac) := pyInt_nonneg (mul_nonneg hh0 h0)
  have hhi : pyInt ((rect.h : ℚ) * frac) ≤ rect.h :=
    pyInt_le hh (mul_le_of_le_one_right hh0 h1)
  unfold splitPointH
  omega

/-- C5 counterexample input: a 100 by 100 rect split vertically at ratio one
half with an odd inner gap of 7 pixels. -/
theorem binarySplitGapCounterexample :
    (splitRect ⟨0, 0, 100, 100⟩ true (1 / 2) 7).1 = ⟨0, 0, 47, 100⟩ ∧
    (splitRect ⟨0, 0, 100, 100⟩ true (1 / 2) 7).2 = ⟨53, 0, 47, 100⟩ ∧
    (splitRect ⟨0, 0, 100, 100⟩ true (1 / 2) 7).2.x -
      (splitRect ⟨0, 0, 100, 100⟩ true (1 / 2) 7).1.x1 = 6 ∧
    (6 : ℤ) ≠ 7 :=
  of_decide_eq_true (by with_unfolding_all rfl)

/-- C5 amended: the binary split cuts at `rect.position + int(rect.size *
ratio)` (the product truncated to an int), insets each side by `gap // 2`
(floored half), keeps the outer edges, clamps child sizes at zero, and --
whenever neither inset is clamped -- separates the two children by exactly
`2 * (gap // 2)` pixels, which equals `gap` only for even gaps. -/
theorem binarySplitAmended (rect : Rect) (frac : ℚ) (gapsIn : ℤ) :
    ((splitRect rect true frac gapsIn).1.x = rect.x ∧
     (splitRect rect true frac gapsIn).2.x1 = rect.x1 ∧
     0 ≤ (splitRect rect true frac gapsIn).1.w ∧
     0 ≤ (splitRect rect true frac gapsIn).2.w ∧
     (rect.x ≤ splitPointV rect frac - halfGap gapsIn →
      splitPointV rect frac + halfGap gapsIn ≤ rect.x1 →
      (splitRect rect true frac gapsIn).2.x - (splitRect rect true frac gapsIn).1.x1 =
        2 * halfGap gapsIn)) ∧
    ((splitRect rect false frac gapsIn).1.y = rect.y ∧
     (splitRect rect false frac gapsIn).2.y1 = rect.y1 ∧
     0 ≤ (splitRect rect false frac gapsIn).1.h ∧
     0 ≤ (splitRect rect false frac gapsIn).2.h ∧
     (rect.y ≤ splitPointH rect frac - halfGap gapsIn →
      splitPointH rect frac + halfGap gapsIn ≤ rect.y1 →
      (splitRect rect false frac gapsIn).2.y - (splitRect rect false frac gapsIn).1.y1 =
        2 * halfGap gapsIn)) := by
  refine ⟨⟨?_, ?_, ?_, ?_, ?_⟩, ⟨?_, ?_, ?_, ?_, ?_⟩⟩ <;>
    simp only [splitRect_vertical, splitRect_horizontal, Rect.x1, Rect.y1] <;>
    (intros; omega)

/-- C5 witness: at a 100 by 100 rect, ratio one half and even gap 6, the
amended statement applies and the visible separation is exactly
`2 * (6 // 2) = 6`. -/
theorem binarySplitAmendedWitness :
    (splitRect ⟨0, 0, 100, 100⟩ true (1 / 2) 6).2.x -
      (splitRect ⟨0, 0, 100, 100⟩ true (1 / 2) 6).1.x1 = 2 * halfGap 6 :=
  (binarySplitAmended ⟨0, 0, 100, 100⟩ (1 / 2) 6).1.2.2.2.2
    (of_decide_eq_true (by with_unfolding_all rfl))
    (of_decide_eq_true (by with_unfolding_all rfl))

/-- C10: for a parent rect of nonnegative size, any ratio in the unit
interval and a nonnegative gap, both children of the binary split have
nonnegative width and height, lie inside the parent, and the first child
ends at or before the start of the second along the split axis. -/
theorem splitSoundness (rect : Rect) (frac : ℚ) (gapsIn : ℤ)
    (hw : 0 ≤ rect.w) (hh : 0 ≤ rect.h) (h0 : 0 ≤ frac) (h1 : frac ≤ 1)
    (hg : 0 ≤ gapsIn) :
    (0 ≤ (splitRect rect true frac gapsIn).1.w ∧
     0 ≤ (splitRect rect true frac gapsIn).1.h ∧
     0 ≤ (splitRect rect true frac gapsIn).2.w ∧
     0 ≤ (splitRect rect true frac gapsIn).2.h ∧
     rect.x ≤ (splitRect rect true frac gapsIn).1.x ∧
     (splitRect rect true frac gapsIn).1.x1 ≤ rect.x1 ∧
     (splitRect rect true frac gapsIn).1.y = rect.y ∧
     (splitRect rect true frac gapsIn).1.h = rect.h ∧
     rect.x ≤ (splitRect rect true frac gapsIn).2.x ∧
     (splitRect rect true frac gapsIn).2.x1 ≤ rect.x1 ∧
     (splitRect rect true frac gapsIn).2.y = rect.y ∧
     (splitRect rect true frac gapsIn).2.h = rect.h ∧
     (splitRect rect true frac gapsIn).1.x1 ≤ (splitRect rect true frac gapsIn).2.x) ∧
    (0 ≤ (splitRect rect false frac gapsIn).1.w ∧
     0 ≤ (splitRect rect false frac gapsIn).1.h ∧
     0 ≤ (splitRect rect false frac gapsIn).2.w ∧
     0 ≤ (splitRect rect false frac gapsIn).2.h ∧
     rect.y ≤ (splitRect rect false frac gapsIn).1.y ∧
     (splitRect rect false frac gapsIn).1.y1 ≤ rect.y1 ∧
     (splitRect rect false frac gapsIn).1.x = rect.x ∧
     (splitRect rect false frac gapsIn).1.w = rect.w ∧
     rect.y ≤ (splitRect rect false frac gapsIn).2.y ∧
     (splitRect rect false frac gapsIn).2.y1 ≤ rect.y1 ∧
     (splitRect rect false frac gapsIn).2.x = rect.x ∧
     (splitRect rect false frac gapsIn).2.w = rect.w ∧
     (splitRect rect false frac gapsIn).1.y1 ≤ (splitRect rect false frac gapsIn).2.y) := by
  have hg2 : 0 ≤ halfGap gapsIn := Int.fdiv_nonneg hg (by omega)
  have hv := splitPointV_bounds hw h0 h1
  have hhb := splitPointH_bounds hh h0 h1
  refine ⟨⟨?_, ?_, ?_, ?_, ?_, ?_, ?_, ?_, ?_, ?_, ?_, ?_, ?_⟩,
    ⟨?_, ?_, ?_, ?_, ?_, ?_, ?_, ?_, ?_, ?_, ?_, ?_, ?_⟩⟩ <;>
    simp only [splitRect_vertical, splitRect_horizontal, Rect.x1, Rect.y1] <;>
    omega

/-- C10 witness: the soundness conjunction applies to the concrete split of a
100 by 100 rect at ratio one half with gap 6; the first vertical child ends
at or before the second child begins. -/
theorem splitSoundnessWitness :
    (splitRect ⟨0, 0, 100, 100⟩ true (1 / 2) 6).1.x1 ≤
      (splitRect ⟨0, 0, 100, 100⟩ true (1 / 2) 6).2.x :=
  (splitSoundness ⟨0, 0, 100, 100⟩ (1 / 2) 6 (by decide) (by decide)
    (of_decide_eq_true (by with_unfolding_all rfl))
    (of_decide_eq_true (by with_unfolding_all rfl))
    (by decide)).1.2.2.2.2.2.2.2.2.2.2.2.2

/-- C6 counterexample: the rect with width exactly `2 * border_size + gaps_in
= 14` (and ample height) is passed through unsplit by the walk step, although
neither side is strictly smaller than the threshold, refuting the claimed
strict-inequality termination condition. -/
theorem terminalThresholdCounterexample :
    stepRect true (1 / 2) 6 4 0 800 400 0 600 300 ([], [], []) ⟨0, 0, 14, 100⟩ =
      ([⟨0, 0, 14, 100⟩], [], []) ∧
    ¬ ((14 : ℤ) < 2 * 4 + 6 ∨ (100 : ℤ) < 2 * 4 + 6) := by
  refine ⟨by decide, by decide⟩

/-- C6 amended: in the binary partition walk a rect is passed through unsplit
exactly when its width or height is at most `2 * border_size + gaps_in`
(non-strict); when both sides strictly exceed the threshold the step emits
only previously accumulated rects and children of the split, never the rect
itself unsplit. -/
theorem terminalThresholdAmended (vertical : Bool) (frac : ℚ)
    (gapsIn borderSize uX uX1 cx uY uY1 cy : ℤ)
    (acc : List Rect × List ℤ × List ℤ) (r : Rect) :
    (r.w ≤ 2 * borderSize + gapsIn ∨ r.h ≤ 2 * borderSize + gapsIn →
      stepRect vertical frac gapsIn borderSize uX uX1 cx uY uY1 cy acc r =
        (acc.1 ++ [r], acc.2)) ∧
    (2 * borderSize + gapsIn < r.w → 2 * borderSize + gapsIn < r.h →
      ∀ r' ∈ (stepRect vertical frac gapsIn borderSize uX uX1 cx uY uY1 cy acc r).1,
        r' ∈ acc.1 ∨ r' = (splitRect r vertical frac gapsIn).1 ∨
          r' = (splitRect r vertical frac gapsIn).2) := by
  constructor
  · intro h
    simp only [stepRect]
    rw [if_pos h]
  · intro h1 h2 r' hr'
    simp only [stepRect] at hr'
    rw [if_neg (by push_neg; exact ⟨h1, h2⟩)] at hr'
    by_cases ha : 0 < (splitRect r vertical frac gapsIn).1.w ∧
        0 < (splitRect r vertical frac gapsIn).1.h
    · rw [if_pos ha] at hr'
      by_cases hb : 0 < (splitRect r vertical frac gapsIn).2.w ∧
          0 < (splitRect r vertical frac gapsIn).2.h
      · rw [if_pos hb] at hr'
        simp only [List.mem_append, List.mem_singleton] at hr'
        tauto
      · rw [if_neg hb] at hr'
        simp only [List.mem_append, List.mem_singleton] at hr'
        tauto
    · rw [if_neg ha] at hr'
      by_cases hb : 0 < (splitRect r vertical frac gapsIn).2.w ∧
          0 < (splitRect r vertical frac gapsIn).2.h
      · rw [if_pos hb] at hr'
        simp only [List.mem_append, List.mem_singleton] at hr'
        tauto
      · rw [if_neg hb] at hr'
        tauto

/-- C6 witness: the threshold rect of the counterexample is passed through
unsplit by the amended statement as well. -/
theorem terminalThresholdAmendedWitness :
    stepRect true (1 / 2) 6 4 0 800 400 0 600 300 ([], [], []) ⟨0, 0, 14, 100⟩ =
      (([] : List Rect) ++ [⟨0, 0, 14, 100⟩], ([], [])) :=
  (terminalThresholdAmended true (1 / 2) 6 4 0 800 400 0 600 300 ([], [], [])
    ⟨0, 0, 14, 100⟩).1 (by decide)

/-- Chain invariant of the minimum-separation loop: starting from a last kept
value below every remaining sorted input value, all consecutive kept values
are at least `sep` apart. -/
lemma minSepAux_chain (sep : ℤ) :
    ∀ (l : List ℤ) (a : ℤ), List.Sorted (fun x y : ℤ => x ≤ y) l →
      (∀ x ∈ l, a ≤ x) →
      List.Chain' (fun u v : ℤ => sep ≤ v - u) (a :: minSepAux sep (some a) l) := by
  intro l
  induction l with
  | nil =>
    intro a _ _
    simp [minSepAux]
  | cons x rest ih =>
    intro a hs hb
    have hax : a ≤ x := hb x (List.mem_cons_self x rest)
    rw [List.sorted_cons] at hs
    by_cases hkeep : sep ≤ |x - a|
    · simp only [minSepAux]
      rw [if_pos hkeep]
      rw [List.chain'_cons]
      constructor
      · rw [abs_of_nonneg (by omega)] at hkeep
        exact hkeep
      · exact ih x hs.2 (fun y hy => hs.1 y hy)
    · simp only [minSepAux]
      rw [if_neg hkeep]
      exact ih a hs.2 (fun y hy => le_trans hax (hs.1 y hy))

/-- C7: for every input coordinate list and every separation bound, after
sorting and applying the minimum-separation filter no two consecutive
retained values differ by less than the bound. -/
theorem minSeparationHolds (l : List ℤ) (sep : ℤ) :
    List.Chain' (fun u v : ℤ => sep ≤ v - u) (retainedCoords sep l) := by
  have hs : List.Sorted (fun a b : ℤ => a ≤ b)
      (List.insertionSort (fun a b : ℤ => a ≤ b) l) :=
    List.sorted_insertionSort _ l
  rw [retainedCoords, minSepFilter]
  cases hsort : List.insertionSort (fun a b : ℤ => a ≤ b) l with
  | nil => simp [minSepAux]
  | cons x rest =>
    rw [hsort] at hs
    rw [List.sorted_cons] at hs
    simp only [minSepAux]
    exact minSepAux_chain sep rest x hs.2 hs.1

/-- C8: two invocations of the irregular BSP grid generation with identical
configuration produce identical X and Y coordinate sets; the split-ratio
sequence is the fixed cycle `ratioCycle`, so the computation is a pure
function of the configuration. -/
theorem gridDeterminism (w1 h1 go1 gi1 bs1 tb1 : ℤ) (d1 : ℕ)
    (w2 h2 go2 gi2 bs2 tb2 : ℤ) (d2 : ℕ)
    (hw : w1 = w2) (hh : h1 = h2) (hgo : go1 = go2) (hgi : gi1 = gi2)
    (hbs : bs1 = bs2) (htb : tb1 = tb2) (hd : d1 = d2) :
    generateIrregularGrid w1 h1 go1 gi1 bs1 tb1 d1 =
      generateIrregularGrid w2 h2 go2 gi2 bs2 tb2 d2 := by
  subst hw hh hgo hgi hbs htb hd
  rfl

/-- C8 witness: the determinism statement applied at the default-like
configuration used in the BSP scenario. -/
theorem gridDeterminismWitness :
    generateIrregularGrid 800 600 0 0 4 0 2 = generateIrregularGrid 800 600 0 0 4 0 2 :=
  gridDeterminism 800 600 0 0 4 0 2 800 600 0 0 4 0 2 rfl rfl rfl rfl rfl rfl rfl

set_option maxRecDepth 8000

/-- Invariant of the fill-mode walk: the accepted footprints are pairwise
disjoint and every cell of an accepted footprint is in the claimed-cell set. -/
def DoodleInv (s : DoodleState) : Prop :=
  s.accepted.Pairwise (fun f g => ∀ k, k ∈ f → k ∉ g) ∧
  ∀ f ∈ s.accepted, ∀ k ∈ f, k ∈ s.filled

/-- Accepting a footprint whose cells are all unclaimed preserves the
invariant, whatever happens to the drawn list and the decision index. -/
lemma doodleInv_extend {s : DoodleState} {fp : List CellKey}
    {dr : List FilledRectCmd} {n : ℕ}
    (hnew : ∀ k ∈ fp, k ∉ s.filled) (hs : DoodleInv s) :
    DoodleInv ⟨s.filled ++ fp, s.accepted ++ [fp], dr, n⟩ := by
  constructor
  · show (s.accepted ++ [fp]).Pairwise (fun f g => ∀ k, k ∈ f → k ∉ g)
    rw [List.pairwise_append]
    refine ⟨hs.1, List.pairwise_singleton _ _, ?_⟩
    intro f hf g hg k hkf hkg
    rw [List.mem_singleton] at hg
    subst hg
    exact hnew k hkg (hs.2 f hf k hkf)
  · show ∀ f ∈ s.accepted ++ [fp], ∀ k ∈ f, k ∈ s.filled ++ fp
    intro f hf k hk
    rw [List.mem_append] at hf
    rw [List.mem_append]
    rcases hf with hf | hf
    · exact Or.inl (hs.2 f hf k hk)
    · rw [List.mem_singleton] at hf
      subst hf
      exact Or.inr hk

/-- The base case of the walk preserves the occupancy invariant. -/
lemma doodleBase_inv (x y w h : ℚ) (padding cX cY cW cH cr : ℤ)
    (dec : ℕ → Decision) (s : DoodleState) (hs : DoodleInv s) :
    DoodleInv (doodleBase x y w h padding cX cY cW cH cr dec s) := by
  simp only [doodleBase]
  split_ifs with h1 h2 h3 h4
  · exact hs
  · exact doodleInv_extend h3.2 hs
  · exact doodleInv_extend h3.2 hs
  · exact hs
  · exact hs

/-- Any number of subdivision rounds preserves the occupancy invariant. -/
lemma drawShapesAux_inv (n : ℕ) : ∀ (x y w h : ℚ) (padding cX cY cW cH cr : ℤ)
    (dec : ℕ → Decision) (s : DoodleState), DoodleInv s →
    DoodleInv (drawShapesAux n x y w h padding cX cY cW cH cr dec s) := by
  induction n with
  | zero =>
    intro x y w h padding cX cY cW cH cr dec s hs
    exact doodleBase_inv x y w h padding cX cY cW cH cr dec s hs
  | succ n ih =>
    intro x y w h padding cX cY cW cH cr dec s hs
    simp only [drawShapesAux]
    exact ih _ _ _ _ _ _ _ _ _ _ _ _
      (ih _ _ _ _ _ _ _ _ _ _ _ _
        (ih _ _ _ _ _ _ _ _ _ _ _ _
          (ih _ _ _ _ _ _ _ _ _ _ _ _ hs)))

/-- C1: for every run of the quadrant-fill walk over a container (any
geometry, any recursion depths, any decision stream), no two accepted merge
footprints share a unit cell: the accepted footprints are pairwise disjoint
as sets of cell keys, because every accepted footprint is inserted into the
claimed-cell set and later claims touching a claimed cell are rejected. -/
theorem fillModeNoOverlap (x y w h : ℚ) (level minLevel : ℤ)
    (padding cX cY cW cH cornerRadius : ℤ) (dec : ℕ → Decision) :
    ((draw_recursive_shapes x y w h level minLevel padding cX cY cW cH cornerRadius
        dec initDoodleState).accepted).Pairwise (fun f g => ∀ k, k ∈ f → k ∉ g) := by
  have h0 : DoodleInv initDoodleState :=
    ⟨List.Pairwise.nil, by intro f hf; cases hf⟩
  exact (drawShapesAux_inv _ _ _ _ _ _ _ _ _ _ _ dec initDoodleState h0).1

/-- C3 counterexample: the 1000 by 1000 container at the origin, quadrant
mode with minimum depth 2 and maximum depth 4, fill probability 1 (every
fill draw accepts) and merging disabled (both merge sizes forced to 1, the
only palette entry at index 0), produces 64 filled rectangles -- the walk
subdivides while `level >= min_level`, three rounds, giving `4 ^ 3 = 64`
cells of 125 by 125 -- not the 16 rectangles the claim expects. -/
theorem quadrantScenarioCounterexample :
    (draw_recursive_shapes 0 0 1000 1000 4 2 1 0 0 1000 1000 20
      (fun _ => ⟨true, 1, 1, 0⟩) initDoodleState).drawn.length = 64 ∧
    (draw_recursive_shapes 0 0 1000 1000 4 2 1 0 0 1000 1000 20
      (fun _ => ⟨true, 1, 1, 0⟩) initDoodleState).drawn.length ≠ 16 :=
  of_decide_eq_true (by with_unfolding_all rfl)

/-- C3 amended: the same scenario produces exactly `4 ^ (4 - 2 + 1) = 64`
filled rectangles, each covering a 125 by 125 terminal cell shrunk by the
padding (here 1 pixel per side, so 123 by 123), all with the single palette
color at index 0 (red). -/
theorem quadrantScenarioAmended :
    (draw_recursive_shapes 0 0 1000 1000 4 2 1 0 0 1000 1000 20
      (fun _ => ⟨true, 1, 1, 0⟩) initDoodleState).drawn.length = 64 ∧
    ∀ r ∈ (draw_recursive_shapes 0 0 1000 1000 4 2 1 0 0 1000 1000 20
      (fun _ => ⟨true, 1, 1, 0⟩) initDoodleState).drawn,
        r.colorIdx = 0 ∧ r.x2 - r.x1 = 123 ∧ r.y2 - r.y1 = 123 :=
  of_decide_eq_true (by with_unfolding_all rfl)

/-- Containment of a drawn rounded rectangle in the container rect of the
fill-mode walk. -/
def CmdInBounds (cX cY cW cH : ℤ) (r : FilledRectCmd) : Prop :=
  cX ≤ r.x1 ∧ cY ≤ r.y1 ∧ r.x2 ≤ cX + cW ∧ r.y2 ≤ cY + cH

/-- The base case of the walk only draws rectangles inside the container,
provided the current cell starts inside the container and the geometry is
nonnegative. -/
lemma doodleBase_bounds (x y w h : ℚ) (padding cX cY cW cH cr : ℤ)
    (dec : ℕ → Decision) (s : DoodleState)
    (hcx : 0 ≤ cX) (hcy : 0 ≤ cY) (hcw : 0 ≤ cW) (hch : 0 ≤ cH) (hp : 0 ≤ padding)
    (hx : (cX : ℚ) ≤ x) (hy : (cY : ℚ) ≤ y) (hw : 0 ≤ w) (hh : 0 ≤ h)
    (hs : ∀ r ∈ s.drawn, CmdInBounds cX cY cW cH r) :
    ∀ r ∈ (doodleBase x y w h padding cX cY cW cH cr dec s).drawn,
      CmdInBounds cX cY cW cH r := by
  have hpq : (0 : ℚ) ≤ (padding : ℚ) := by exact_mod_cast hp
  simp only [doodleBase]
  split_ifs with h1 h2 h3 h4
  · exact hs
  · intro r hr
    simp only [List.mem_append, List.mem_singleton] at hr
    rcases hr with hr | hr
    · exact hs r hr
    · subst hr
      have hex := h3.1
      rw [not_or] at hex
      have hex1 : x + w * ((dec s.idx).mergeW : ℚ) ≤ ((cX + cW : ℤ) : ℚ) :=
        not_lt.mp hex.1
      have hex2 : y + h * ((dec s.idx).mergeH : ℚ) ≤ ((cY + cH : ℤ) : ℚ) :=
        not_lt.mp hex.2
      have hmw : (0 : ℚ) ≤ w * ((dec s.idx).mergeW : ℚ) :=
        mul_nonneg hw (Nat.cast_nonneg _)
      have hmh : (0 : ℚ) ≤ h * ((dec s.idx).mergeH : ℚ) :=
        mul_nonneg hh (Nat.cast_nonneg _)
      refine ⟨?_, ?_, ?_, ?_⟩
      · exact le_pyInt hcx (by linarith)
      · exact le_pyInt hcy (by linarith)
      · exact pyInt_le (by omega) (by linarith)
      · exact pyInt_le (by omega) (by linarith)
  · exact hs
  · exact hs
  · exact hs

/-- Any number of subdivision rounds preserves drawn-rectangle containment:
the quadrant children of a cell inside the container stay inside it. -/
lemma drawShapesAux_bounds (n : ℕ) :
    ∀ (x y w h : ℚ) (padding cX cY cW cH cr : ℤ) (dec : ℕ → Decision)
      (s : DoodleState),
    0 ≤ cX → 0 ≤ cY → 0 ≤ cW → 0 ≤ cH → 0 ≤ padding →
    (cX : ℚ) ≤ x → (cY : ℚ) ≤ y → 0 ≤ w → 0 ≤ h →
    (∀ r ∈ s.drawn, CmdInBounds cX cY cW cH r) →
    ∀ r ∈ (drawShapesAux n x y w h padding cX cY cW cH cr dec s).drawn,
      CmdInBounds cX cY cW cH r := by
  induction n with
  | zero =>
    intro x y w h padding cX cY cW cH cr dec s hcx hcy hcw hch hp hx hy hw hh hs
    exact doodleBase_bounds x y w h padding cX cY cW cH cr dec s
      hcx hcy hcw hch hp hx hy hw hh hs
  | succ n ih =>
    intro x y w h padding cX cY cW cH cr dec s hcx hcy hcw hch hp hx hy hw hh hs
    have hw2 : (0 : ℚ) ≤ w / 2 := div_nonneg hw (by norm_num)
    have hh2 : (0 : ℚ) ≤ h / 2 := div_nonneg hh (by norm_num)
    have hx2 : (cX : ℚ) ≤ x + w / 2 := by linarith
    have hy2 : (cY : ℚ) ≤ y + h / 2 := by linarith
    simp only [drawShapesAux]
    exact ih _ _ _ _ _ _ _ _ _ _ _ _ hcx hcy hcw hch hp hx2 hy2 hw2 hh2
      (ih _ _ _ _ _ _ _ _ _ _ _ _ hcx hcy hcw hch hp hx hy2 hw2 hh2
        (ih _ _ _ _ _ _ _ _ _ _ _ _ hcx hcy hcw hch hp hx2 hy hw2 hh2
          (ih _ _ _ _ _ _ _ _ _ _ _ _ hcx hcy hcw hch hp hx hy hw2 hh2 hs)))

/-- Every dot center placed by the irregular mode passes the usable-area
guard of `create_dotted_wallpaper_irregular`. -/
lemma irregularDotPositions_bounds (width height gapsOut gapsIn borderSize topBar : ℤ)
    (maxDepth : ℕ) (p : ℤ × ℤ)
    (hp : p ∈ irregularDotPositions width height gapsOut gapsIn borderSize topBar maxDepth) :
    gapsOut ≤ p.1 ∧ p.1 ≤ width - gapsOut ∧
      topBar + gapsOut ≤ p.2 ∧ p.2 ≤ height - gapsOut := by
  simp only [irregularDotPositions, List.mem_flatMap, List.mem_filterMap] at hp
  obtain ⟨x, _, y, _, hxy⟩ := hp
  by_cases hc : gapsOut ≤ x ∧ x ≤ width - gapsOut ∧
      topBar + gapsOut ≤ y ∧ y ≤ height - gapsOut
  · rw [if_pos hc] at hxy
    cases hxy
    exact hc
  · rw [if_neg hc] at hxy
    cases hxy

/-- Every dot center placed by the uniform mode lies in the usable area,
for positive spacing: rows and columns start at the near gap boundary and
are cut off at the far one. -/
lemma uniformDotPositions_bounds (width height dotSpacing gapsOut topBar : ℤ)
    (p : ℤ × ℤ) (hsp : 0 < dotSpacing)
    (hp : p ∈ uniformDotPositions width height dotSpacing gapsOut topBar) :
    gapsOut ≤ p.1 ∧ p.1 ≤ width - gapsOut ∧
      topBar + gapsOut ≤ p.2 ∧ p.2 ≤ height - gapsOut := by
  simp only [uniformDotPositions, List.mem_flatMap, List.mem_map] at hp
  obtain ⟨y, hy, x, hx, hxy⟩ := hp
  subst hxy
  have hyb : y ≤ height - gapsOut := by
    have := List.mem_takeWhile_imp hy
    simpa using this
  have hxb : x ≤ width - gapsOut := by
    have := List.mem_takeWhile_imp hx
    simpa using this
  have hy0 : topBar + gapsOut ≤ y := by
    have hy1 := (List.takeWhile_sublist _).subset hy
    simp only [List.mem_map, List.mem_range] at hy1
    obtain ⟨row, _, hrow⟩ := hy1
    have : 0 ≤ (row : ℤ) * dotSpacing :=
      mul_nonneg (Int.natCast_nonneg row) (le_of_lt hsp)
    omega
  have hx0 : gapsOut ≤ x := by
    have hx1 := (List.takeWhile_sublist _).subset hx
    simp only [List.mem_map, List.mem_range] at hx1
    obtain ⟨col, _, hcol⟩ := hx1
    have : 0 ≤ (col : ℤ) * dotSpacing :=
      mul_nonneg (Int.natCast_nonneg col) (le_of_lt hsp)
    omega
  exact ⟨hx0, hxb, hy0, hyb⟩

/-- C9 counterexample: with the irregular mode on an 800 by 600 screen with
outer gap 12, inner gap 6, border 4, top bar 32, depth 1 and dot radius 2,
the run draws the ellipse with bounding box `(10, 42, 14, 46)`, whose left
edge 10 lies strictly outside the outer-gap boundary at `gaps_out = 12`:
a drawn ellipse geometry, radius extent included, crosses the boundary. -/
theorem containmentCounterexample :
    (10, 42, 14, 46) ∈ irregularEllipses 800 600 12 6 4 32 1 2 ∧ (10 : ℤ) < 12 :=
  of_decide_eq_true (by with_unfolding_all rfl)

/-- C9 amended: every dot center drawn by the irregular mode and (for
positive spacing) by the uniform mode lies within the usable bounds, and
every filled rectangle of the quadrant fill-mode walk lies within its
container; only the radius extent of a dot ellipse may cross the outer-gap
or top-bar boundary, by at most the dot radius. -/
theorem containmentAmended :
    (∀ (width height gapsOut gapsIn borderSize topBar : ℤ) (maxDepth : ℕ) (p : ℤ × ℤ),
      p ∈ irregularDotPositions width height gapsOut gapsIn borderSize topBar maxDepth →
      gapsOut ≤ p.1 ∧ p.1 ≤ width - gapsOut ∧
        topBar + gapsOut ≤ p.2 ∧ p.2 ≤ height - gapsOut) ∧
    (∀ (width height dotSpacing gapsOut topBar : ℤ) (p : ℤ × ℤ), 0 < dotSpacing →
      p ∈ uniformDotPositions width height dotSpacing gapsOut topBar →
      gapsOut ≤ p.1 ∧ p.1 ≤ width - gapsOut ∧
        topBar + gapsOut ≤ p.2 ∧ p.2 ≤ height - gapsOut) ∧
    (∀ (x y w h : ℚ) (level minLevel padding cX cY cW cH cornerRadius : ℤ)
      (dec : ℕ → Decision) (r : FilledRectCmd),
      0 ≤ cX → 0 ≤ cY → 0 ≤ cW → 0 ≤ cH → 0 ≤ padding →
      (cX : ℚ) ≤ x → (cY : ℚ) ≤ y → 0 ≤ w → 0 ≤ h →
      r ∈ (draw_recursive_shapes x y w h level minLevel padding cX cY cW cH
            cornerRadius dec initDoodleState).drawn →
      CmdInBounds cX cY cW cH r) := by
  refine ⟨irregularDotPositions_bounds, uniformDotPositions_bounds, ?_⟩
  intro x y w h level minLevel padding cX cY cW cH cornerRadius dec r
  intro hcx hcy hcw hch hp hx hy hw hh hr
  exact drawShapesAux_bounds _ _ _ _ _ _ _ _ _ _ _ dec initDoodleState
    hcx hcy hcw hch hp hx hy hw hh (by intro q hq; cases hq) r hr

/-- C9 witness: the amended containment applied to the concrete dot center
`(12, 44)` of the irregular scenario, the center `(5, 10)` of a small uniform
run, and the first rectangle of the quadrant scenario. -/
theorem containmentAmendedWitness :
    ((12 : ℤ) ≤ 12 ∧ (12 : ℤ) ≤ 800 - 12 ∧ (32 : ℤ) + 12 ≤ 44 ∧ (44 : ℤ) ≤ 600 - 12) ∧
    ((5 : ℤ) ≤ 5 ∧ (5 : ℤ) ≤ 100 - 5 ∧ (5 : ℤ) + 5 ≤ 10 ∧ (10 : ℤ) ≤ 100 - 5) ∧
    CmdInBounds 0 0 1000 1000 ⟨1, 1, 124, 124, 20, 0⟩ :=
  ⟨containmentAmended.1 800 600 12 6 4 32 1 (12, 44)
      (of_decide_eq_true (by with_unfolding_all rfl)),
   containmentAmended.2.1 100 100 10 5 5 (5, 10) (by decide)
      (of_decide_eq_true (by with_unfolding_all rfl)),
   containmentAmended.2.2 0 0 1000 1000 4 2 1 0 0 1000 1000 20
      (fun _ => ⟨true, 1, 1, 0⟩) ⟨1, 1, 124, 124, 20, 0⟩
      (by decide) (by decide) (by decide) (by decide) (by decide)
      (of_decide_eq_true (by with_unfolding_all rfl))
      (of_decide_eq_true (by with_unfolding_all rfl))
      (of_decide_eq_true (by with_unfolding_all rfl))
      (of_decide_eq_true (by with_unfolding_all rfl))
      (of_decide_eq_true (by with_unfolding_all rfl))⟩

/-- Symmetry closure of a line coordinate set: every member is within the
usable interval and its mirror about the center, when within the interval,
is also a member. -/
def SymClosed (lo hi c : ℤ) (L : List ℤ) : Prop :=
  ∀ v ∈ L, lo ≤ v ∧ v ≤ hi ∧ (lo ≤ 2 * c - v → 2 * c - v ≤ hi → 2 * c - v ∈ L)

/-- The empty coordinate set is symmetry-closed. -/
lemma symClosed_nil (lo hi c : ℤ) : SymClosed lo hi c [] := by
  intro v hv
  cases hv

/-- Recording one line preserves symmetry closure: the coordinate is only
inserted when in range, and its in-range mirror is inserted with it. -/
lemma addLine_symClosed {lo hi c : ℤ} {L : List ℤ} (v : ℤ)
    (h : SymClosed lo hi c L) : SymClosed lo hi c (addLine lo hi c L v) := by
  simp only [addLine]
  split_ifs with hout hm
  · exact h
  · intro u hu
    rw [List.mem_insert_iff, List.mem_insert_iff] at hu
    push_neg at hout
    rcases hu with hu | hu | hu
    · subst hu
      refine ⟨hm.1, hm.2, ?_⟩
      intro _ _
      have hself : 2 * c - (2 * c - v) = v := by ring
      rw [hself, List.mem_insert_iff, List.mem_insert_iff]
      right; left; rfl
    · subst hu
      refine ⟨by omega, by omega, ?_⟩
      intro _ _
      rw [List.mem_insert_iff]
      left; rfl
    · obtain ⟨h1, h2, h3⟩ := h u hu
      refine ⟨h1, h2, ?_⟩
      intro ha hb
      rw [List.mem_insert_iff, List.mem_insert_iff]
      right; right
      exact h3 ha hb
  · intro u hu
    rw [List.mem_insert_iff] at hu
    push_neg at hout
    rcases hu with hu | hu
    · subst hu
      refine ⟨by omega, by omega, ?_⟩
      intro ha hb
      exact absurd ⟨ha, hb⟩ hm
    · obtain ⟨h1, h2, h3⟩ := h u hu
      refine ⟨h1, h2, ?_⟩
      intro ha hb
      rw [List.mem_insert_iff]
      right
      exact h3 ha hb

/-- Symmetry closure of both coordinate sets of a grid state. -/
def GridSym (uX uX1 cx uY uY1 cy : ℤ) (xy : List ℤ × List ℤ) : Prop :=
  SymClosed uX uX1 cx xy.1 ∧ SymClosed uY uY1 cy xy.2

/-- Recording the four edges of a rect preserves symmetry closure. -/
lemma addRectEdges_sym {uX uX1 cx uY uY1 cy : ℤ} {xy : List ℤ × List ℤ} (r : Rect)
    (h : GridSym uX uX1 cx uY uY1 cy xy) :
    GridSym uX uX1 cx uY uY1 cy (addRectEdges uX uX1 cx uY uY1 cy xy r) :=
  ⟨addLine_symClosed r.x1 (addLine_symClosed r.x h.1),
   addLine_symClosed r.y1 (addLine_symClosed r.y h.2)⟩

/-- One walk step over a rect preserves symmetry closure of the coordinate
sets: lines are only recorded through `addLine`. -/
lemma stepRect_sym (vertical : Bool) (frac : ℚ)
    (gapsIn borderSize uX uX1 cx uY uY1 cy : ℤ)
    (acc : List Rect × List ℤ × List ℤ) (r : Rect)
    (h : GridSym uX uX1 cx uY uY1 cy acc.2) :
    GridSym uX uX1 cx uY uY1 cy
      (stepRect vertical frac gapsIn borderSize uX uX1 cx uY uY1 cy acc r).2 := by
  simp only [stepRect]
  split_ifs with h1 h2 h3 h4
  all_goals first
    | exact h
    | exact addRectEdges_sym _ h
    | exact addRectEdges_sym _ (addRectEdges_sym _ h)

/-- Fold preservation helper: a property preserved by each step is preserved
by the whole left fold. -/
lemma foldl_pres {α β : Type} {P : α → Prop} (f : α → β → α)
    (hf : ∀ a b, P a → P (f a b)) :
    ∀ (l : List β) (a : α), P a → P (l.foldl f a) := by
  intro l
  induction l with
  | nil =>
    intro a ha
    simpa using ha
  | cons b t ih =>
    intro a ha
    rw [List.foldl_cons]
    exact ih _ (hf a b ha)

/-- One depth round of the walk preserves symmetry closure. -/
lemma depthStep_sym (gapsIn borderSize uX uX1 cx uY uY1 cy : ℤ)
    (st : List Rect × List ℤ × List ℤ) (depth : ℕ)
    (h : GridSym uX uX1 cx uY uY1 cy st.2) :
    GridSym uX uX1 cx uY uY1 cy
      (depthStep gapsIn borderSize uX uX1 cx uY uY1 cy st depth).2 := by
  simp only [depthStep]
  exact foldl_pres (P := fun acc => GridSym uX uX1 cx uY uY1 cy acc.2) _
    (fun a b ha => stepRect_sym _ _ _ _ _ _ _ _ _ _ a b ha) st.1 ([], st.2) h

/-- The full irregular grid generation produces symmetry-closed raw
coordinate sets. -/
lemma generateIrregularGrid_sym (width height gapsOut gapsIn borderSize topBar : ℤ)
    (maxDepth : ℕ) :
    GridSym (usableRect width height gapsOut topBar).x
      (usableRect width height gapsOut topBar).x1
      (gridCenterX width height gapsOut topBar)
      (usableRect width height gapsOut topBar).y
      (usableRect width height gapsOut topBar).y1
      (gridCenterY width height gapsOut topBar)
      (generateIrregularGrid width height gapsOut gapsIn borderSize topBar maxDepth) := by
  simp only [generateIrregularGrid]
  apply foldl_pres
    (P := fun st : List Rect × List ℤ × List ℤ =>
      GridSym (usableRect width height gapsOut topBar).x
        (usableRect width height gapsOut topBar).x1
        (gridCenterX width height gapsOut topBar)
        (usableRect width height gapsOut topBar).y
        (usableRect width height gapsOut topBar).y1
        (gridCenterY width height gapsOut topBar) st.2)
    _ (fun a b ha => depthStep_sym _ _ _ _ _ _ _ _ a b ha)
  exact ⟨addLine_symClosed _ (addLine_symClosed _ (symClosed_nil _ _ _)),
    addLine_symClosed _ (addLine_symClosed _ (symClosed_nil _ _ _))⟩

/-- C2 counterexample: with an 800 by 600 screen, no outer gap or top bar,
inner gap 6, border 4 and depth 1, the raw X set is `{0, 397, 403, 800}`
with center 400; after the minimum-separation filter (threshold 8), 397 is
retained but its in-range mirror 403 is dropped, so the filtered sets are
not symmetric. -/
theorem symmetryFilteredCounterexample :
    (397 : ℤ) ∈ retainedCoords 8 (generateIrregularGrid 800 600 0 6 4 0 1).1 ∧
    (usableRect 800 600 0 0).x ≤ 2 * gridCenterX 800 600 0 0 - 397 ∧
    2 * gridCenterX 800 600 0 0 - 397 ≤ (usableRect 800 600 0 0).x1 ∧
    (2 * gridCenterX 800 600 0 0 - 397 : ℤ) ∉
      retainedCoords 8 (generateIrregularGrid 800 600 0 6 4 0 1).1 :=
  of_decide_eq_true (by with_unfolding_all rfl)

/-- C2 amended: the symmetry invariant holds for the raw coordinate sets
produced by the recursive walk, before the minimum-separation filter: for
every recorded X coordinate whose mirror about the usable center lies within
the usable interval, the mirror is also recorded, and likewise for Y.  The
filter can break this symmetry (see the counterexample). -/
theorem lineSymmetryAmended (width height gapsOut gapsIn borderSize topBar : ℤ)
    (maxDepth : ℕ) :
    (∀ x ∈ (generateIrregularGrid width height gapsOut gapsIn borderSize topBar maxDepth).1,
      (usableRect width height gapsOut topBar).x ≤
          2 * gridCenterX width height gapsOut topBar - x →
      2 * gridCenterX width height gapsOut topBar - x ≤
          (usableRect width height gapsOut topBar).x1 →
      2 * gridCenterX width height gapsOut topBar - x ∈
        (generateIrregularGrid width height gapsOut gapsIn borderSize topBar maxDepth).1) ∧
    (∀ y ∈ (generateIrregularGrid width height gapsOut gapsIn borderSize topBar maxDepth).2,
      (usableRect width height gapsOut topBar).y ≤
          2 * gridCenterY width height gapsOut topBar - y →
      2 * gridCenterY width height gapsOut topBar - y ≤
          (usableRect width height gapsOut topBar).y1 →
      2 * gridCenterY width height gapsOut topBar - y ∈
        (generateIrregularGrid width height gapsOut gapsIn borderSize topBar maxDepth).2) := by
  have h := generateIrregularGrid_sym width height gapsOut gapsIn borderSize topBar maxDepth
  exact ⟨fun x hx => (h.1 x hx).2.2, fun y hy => (h.2 y hy).2.2⟩

/-- C2 witness: in the counterexample configuration the raw X set does
contain the mirror 403 of the recorded coordinate 397. -/
theorem lineSymmetryAmendedWitness :
    (2 * gridCenterX 800 600 0 0 - 397 : ℤ) ∈ (generateIrregularGrid 800 600 0 6 4 0 1).1 :=
  (lineSymmetryAmended 800 600 0 6 4 0 1).1 397
    (of_decide_eq_true (by with_unfolding_all rfl))
    (of_decide_eq_true (by with_unfolding_all rfl))
    (of_decide_eq_true (by with_unfolding_all rfl))

/-- C4 counterexample: with the 800 by 600 container at the origin (zero
outer gap, zero top bar, zero inner gap) and the maximum depth parameter set
to 1, only the vertical split round runs, so the retained Y set is
`{0, 600}`, not the claimed `{0, 300, 600}`. -/
theorem bspScenarioCounterexample :
    retainedCoords 8 (generateIrregularGrid 800 600 0 0 4 0 1).2 = [0, 600] ∧
    (300 : ℤ) ∉ (generateIrregularGrid 800 600 0 0 4 0 1).2 :=
  of_decide_eq_true (by with_unfolding_all rfl)

/-- C4 amended: the scenario needs maximum depth 2 (one vertical round, then
one horizontal round, both at ratio one half): then the retained X set is
`{0, 400, 800}` and the retained Y set is `{0, 300, 600}`. -/
theorem bspScenarioAmended :
    retainedCoords 8 (generateIrregularGrid 800 600 0 0 4 0 2).1 = [0, 400, 800] ∧
    retainedCoords 8 (generateIrregularGrid 800 600 0 0 4 0 2).2 = [0, 300, 600] :=
  of_decide_eq_true (by with_unfolding_all rfl)

end ArchWall
